import Mathlib

/-!
Shallow embedding of `src/c_ext/rms.c` from the VoxInput repository.

The C file defines two functions over buffers of signed 16-bit PCM samples:

* `double vox_rms_int16(const int16_t* samples, int n)` — single-pass RMS:
  `if (n <= 0) return 0.0;` then accumulates `sum += s*s` over the first `n`
  samples (each widened to double) and returns `sqrt(sum / (double)n)`.
* `void vox_pcm_to_float32(const int16_t* samples, float* out, int n)` —
  `if (n <= 0) return;` then writes `out[i] = (float)samples[i] / 32768.0f`
  for `i` in `[0, n)`.

Modelling choices:
* A sample buffer is a `List Int`; the `int16_t` range `[-32768, 32767]` is
  carried as a hypothesis where a claim needs it.
* Floating-point values are modelled by exact arithmetic: `ℚ` for every
  operation except the final square root, which lives in `ℝ` via `Real.sqrt`.
  For the converter this abstraction is bit-exact: the `int16 → float`
  conversion is exact (|s| ≤ 32768 < 2^24) and division by the power of two
  `32768.0f = 2^15` is an exact exponent shift for these magnitudes.  For the
  RMS routine each squared sample is exact in double (≤ 2^30 < 2^53); the
  model abstracts the rounding of the running sum, the division and the final
  square root to exact real arithmetic.
* The in-place write loop of `vox_pcm_to_float32` is modelled by explicit
  state passing on the output list, one `List.set` per loop iteration.
-/

/-- The loop body accumulator of `vox_rms_int16`: starting from `sum = 0.0`,
`sum += s * s` over the buffer, each sample widened to double
(modelled as `ℚ`). -/
def squareStep (sum : ℚ) (s : Int) : ℚ := sum + (s : ℚ) * (s : ℚ)

def squareSumLoop (samples : List Int) : ℚ :=
  samples.foldl squareStep 0

/-- `vox_rms_int16(samples, n)`: `0.0` when `n <= 0`, otherwise
`sqrt(sum / (double)n)` where `sum` is the accumulated sum of squares of the
first `n` samples. -/
noncomputable def vox_rms_int16 (samples : List Int) (n : Int) : ℝ :=
  if n ≤ 0 then 0
  else Real.sqrt ((squareSumLoop (samples.take n.toNat) / (n : ℚ) : ℚ) : ℝ)

/-- One iteration's written value in `vox_pcm_to_float32`:
`(float)samples[i] / 32768.0f` (exact in `ℚ`, see header comment). -/
def pcmToFloat (s : Int) : ℚ := (s : ℚ) / 32768

/-- The write loop of `vox_pcm_to_float32`: starting at index `i` with `k`
iterations left, each iteration stores `pcmToFloat samples[i]` into `out[i]`.
Reads outside the sample buffer are modelled with default `0` (the claims
always supply a buffer long enough, matching the C caller obligation). -/
def vox_pcm_loop (samples : List Int) : List ℚ → Nat → Nat → List ℚ
  | out, _, 0 => out
  | out, i, k + 1 =>
      vox_pcm_loop samples (out.set i (pcmToFloat (samples.getD i 0))) (i + 1) k

/-- `vox_pcm_to_float32(samples, out, n)`: no-op when `n <= 0`, otherwise the
loop `for (i = 0; i < n; i++) out[i] = (float)samples[i] / 32768.0f;`,
returning the final state of the output buffer. -/
def vox_pcm_to_float32 (samples : List Int) (out : List ℚ) (n : Int) : List ℚ :=
  if n ≤ 0 then out else vox_pcm_loop samples out 0 n.toNat

/-- The mathematical square of one sample, widened to `ℚ`. -/
def sampleSq (s : Int) : ℚ := (s : ℚ) * (s : ℚ)

theorem squareSumLoop_foldl (l : List Int) (a : ℚ) :
    l.foldl squareStep a = a + (l.map sampleSq).sum := by
  induction l generalizing a with
  | nil => simp
  | cons x xs ih =>
      rw [List.foldl_cons, ih, List.map_cons, List.sum_cons, squareStep, sampleSq, add_assoc]

theorem squareSumLoop_eq (l : List Int) :
    squareSumLoop l = (l.map sampleSq).sum := by
  simpa using squareSumLoop_foldl l 0

theorem squareSumLoop_nonneg (l : List Int) : 0 ≤ squareSumLoop l := by
  rw [squareSumLoop_eq]
  apply List.sum_nonneg
  intro x hx
  rcases List.mem_map.mp hx with ⟨s, _, rfl⟩
  exact mul_self_nonneg _

theorem vox_pcm_loop_length (samples : List Int) :
    ∀ (k i : Nat) (out : List ℚ),
      (vox_pcm_loop samples out i k).length = out.length := by
  intro k
  induction k with
  | zero => intro i out; rfl
  | succ k ih =>
      intro i out
      rw [vox_pcm_loop, ih, List.length_set]

theorem vox_pcm_loop_frame (samples : List Int) :
    ∀ (k i : Nat) (out : List ℚ) (j : Nat), (j < i ∨ i + k ≤ j) →
      (vox_pcm_loop samples out i k)[j]? = out[j]? := by
  intro k
  induction k with
  | zero => intro i out j _; rfl
  | succ k ih =>
      intro i out j hj
      have hij : i ≠ j := by omega
      rw [vox_pcm_loop, ih (i + 1) _ j (by omega), List.getElem?_set_ne hij]

theorem vox_pcm_loop_get (samples : List Int) :
    ∀ (k i : Nat) (out : List ℚ) (j : Nat),
      i ≤ j → j < i + k → j < out.length →
      (vox_pcm_loop samples out i k)[j]? = some (pcmToFloat (samples.getD j 0)) := by
  intro k
  induction k with
  | zero => intro i out j h1 h2 _; omega
  | succ k ih =>
      intro i out j h1 h2 h3
      rw [vox_pcm_loop]
      by_cases hj : j = i
      · subst hj
        rw [vox_pcm_loop_frame samples k (j + 1) _ j (Or.inl (by omega))]
        exact List.getElem?_set_eq_of_lt _ (by simpa using h3)
      · exact ih (i + 1) _ j (by omega) (by omega) (by simpa using h3)

theorem vox_pcm_to_float32_get (samples : List Int) (out : List ℚ) (n : Int)
    (i : Nat) (hi : (i : Int) < n) (hout : n.toNat ≤ out.length) :
    (vox_pcm_to_float32 samples out n)[i]? = some (pcmToFloat (samples.getD i 0)) := by
  have hn : ¬ n ≤ 0 := by omega
  rw [vox_pcm_to_float32, if_neg hn]
  exact vox_pcm_loop_get samples n.toNat 0 out i (Nat.zero_le _) (by omega) (by omega)

/-- Claim C1: for every count `N ≥ 1` and buffer `S` of `N` samples,
`vox_rms_int16(S, N)` returns `sqrt(sum(s_i^2) / N)`, the sum of squares
accumulated by the loop and the square root taken once at the end. -/
theorem vox_C1_rms_formula (samples : List Int) (n : Int)
    (h1 : 1 ≤ n) (h2 : samples.length = n.toNat) :
    vox_rms_int16 samples n
      = Real.sqrt ((((samples.map sampleSq).sum / (n : ℚ) : ℚ) : ℝ)) := by
  rw [vox_rms_int16, if_neg (by omega), ← h2, List.take_length, squareSumLoop_eq]

theorem vox_C1_witness :
    (1 : Int) ≤ 2
    ∧ vox_rms_int16 [3, 4] 2
        = Real.sqrt (((([3, 4].map sampleSq).sum / ((2 : Int) : ℚ) : ℚ) : ℝ)) :=
  ⟨by decide, vox_C1_rms_formula [3, 4] 2 (by decide) (by decide)⟩

/-- Claim C2: for every buffer `S` of at least `N` samples and output buffer of
length `≥ N`, after `vox_pcm_to_float32(S, out, N)` position `i < N` of the
output holds `S[i] / 32768` (scale constant `32768`, not `32767`). -/
theorem vox_C2_convert_formula (samples : List Int) (out : List ℚ) (n : Int)
    (i : Nat) (hi : (i : Int) < n)
    (_hs : n.toNat ≤ samples.length) (hout : n.toNat ≤ out.length) :
    (vox_pcm_to_float32 samples out n)[i]? = some ((samples.getD i 0 : ℚ) / 32768) := by
  rw [vox_pcm_to_float32_get samples out n i hi hout, pcmToFloat]

theorem vox_C2_witness :
    ((0 : Nat) : Int) < 2 ∧ (2 : Int).toNat ≤ ([16384, -32768] : List Int).length
    ∧ (2 : Int).toNat ≤ ([0, 0] : List ℚ).length
    ∧ (vox_pcm_to_float32 [16384, -32768] [0, 0] 2)[(0 : Nat)]?
        = some ((([16384, -32768] : List Int).getD 0 0 : ℚ) / 32768) :=
  ⟨by decide, by decide, by decide,
   vox_C2_convert_formula [16384, -32768] [0, 0] 2 0 (by decide) (by decide) (by decide)⟩

/-- Claim C3: for every count `N ≤ 0`, `vox_rms_int16` returns exactly `0.0`,
regardless of the sample buffer. -/
theorem vox_C3_rms_nonpos (samples : List Int) (n : Int) (h : n ≤ 0) :
    vox_rms_int16 samples n = 0 := by
  rw [vox_rms_int16, if_pos h]

theorem vox_C3_witness :
    (-1 : Int) ≤ 0 ∧ vox_rms_int16 [5] (-1) = 0 :=
  ⟨by decide, vox_C3_rms_nonpos [5] (-1) (by decide)⟩

/-- Claim C4: for every count `N ≤ 0`, `vox_pcm_to_float32` performs no writes:
the output buffer is returned unchanged. -/
theorem vox_C4_convert_nonpos (samples : List Int) (out : List ℚ) (n : Int)
    (h : n ≤ 0) :
    vox_pcm_to_float32 samples out n = out := by
  rw [vox_pcm_to_float32, if_pos h]

theorem vox_C4_witness :
    (0 : Int) ≤ 0 ∧ vox_pcm_to_float32 [9] [3, 7] 0 = [3, 7] :=
  ⟨by decide, vox_C4_convert_nonpos [9] [3, 7] 0 (by decide)⟩

/-- Claim C5: converting the single sample `-32768` yields exactly `-1`;
converting the single sample `32767` yields exactly `32767/32768`; and every
converted in-range sample lies in `[-1, 1)`, never reaching `1`.  (For the
scale `32768 = 2^15` the modelled exact division coincides with the float32
division bit for bit.) -/
theorem vox_C5_extremes :
    vox_pcm_to_float32 [-32768] [0] 1 = [-1]
    ∧ vox_pcm_to_float32 [32767] [0] 1 = [32767 / 32768]
    ∧ ∀ s : Int, -32768 ≤ s → s ≤ 32767 → -1 ≤ pcmToFloat s ∧ pcmToFloat s < 1 := by
  refine ⟨by norm_num [vox_pcm_to_float32, vox_pcm_loop, pcmToFloat],
         by norm_num [vox_pcm_to_float32, vox_pcm_loop, pcmToFloat], ?_⟩
  intro s h1 h2
  have h1' : (-32768 : ℚ) ≤ (s : ℚ) := by exact_mod_cast h1
  have h2' : ((s : ℚ)) ≤ 32767 := by exact_mod_cast h2
  constructor
  · rw [pcmToFloat, le_div_iff₀ (by norm_num : (0 : ℚ) < 32768)]
    linarith
  · rw [pcmToFloat, div_lt_iff₀ (by norm_num : (0 : ℚ) < 32768)]
    linarith

theorem vox_C5_witness :
    -1 ≤ pcmToFloat 12345 ∧ pcmToFloat 12345 < 1 :=
  vox_C5_extremes.2.2 12345 (by decide) (by decide)

/-- Claim C6: for every length `N ≥ 0`, the RMS of a buffer of `N` zero
samples is exactly `0.0`. -/
theorem vox_C6_rms_zeros (n : Nat) :
    vox_rms_int16 (List.replicate n 0) (n : Int) = 0 := by
  rcases Nat.eq_zero_or_pos n with h | h
  · subst h
    rw [vox_rms_int16, if_pos (by omega)]
  · rw [vox_rms_int16, if_neg (by omega)]
    have htake : (List.replicate n (0 : Int)).take ((n : Int)).toNat
        = List.replicate n 0 := by
      simp
    have hsum : squareSumLoop (List.replicate n (0 : Int)) = 0 := by
      rw [squareSumLoop_eq]
      simp [sampleSq]
    rw [htake, hsum]
    simp

/-- Claim C7: `vox_pcm_to_float32` writes only output indices in `[0, N)`:
every index `j ≥ N` of the output buffer is unchanged and the buffer keeps its
length.  (Input buffers are immutable values in this embedding, matching the
`const` input pointers of the C code, which neither routine writes through.) -/
theorem vox_C7_frame (samples : List Int) (out : List ℚ) (n : Int) (j : Nat)
    (hj : n.toNat ≤ j) :
    (vox_pcm_to_float32 samples out n).length = out.length
    ∧ (vox_pcm_to_float32 samples out n)[j]? = out[j]? := by
  constructor
  · rw [vox_pcm_to_float32]
    split
    · rfl
    · exact vox_pcm_loop_length samples _ _ _
  · rw [vox_pcm_to_float32]
    split
    · rfl
    · exact vox_pcm_loop_frame samples n.toNat 0 out j (Or.inr (by omega))

theorem vox_C7_witness :
    (1 : Int).toNat ≤ 1
    ∧ ((vox_pcm_to_float32 [1] [2, 3] 1).length = ([2, 3] : List ℚ).length
       ∧ (vox_pcm_to_float32 [1] [2, 3] 1)[(1 : Nat)]? = ([2, 3] : List ℚ)[(1 : Nat)]?) :=
  ⟨by decide, vox_C7_frame [1] [2, 3] 1 1 (by decide)⟩

/-- Claim C8: both routines are deterministic and stateless: equal sample
buffers, counts and output-buffer contents give equal results. -/
theorem vox_C8_deterministic (s1 s2 : List Int) (o1 o2 : List ℚ) (n1 n2 : Int)
    (hs : s1 = s2) (hn : n1 = n2) (ho : o1 = o2) :
    vox_rms_int16 s1 n1 = vox_rms_int16 s2 n2
    ∧ vox_pcm_to_float32 s1 o1 n1 = vox_pcm_to_float32 s2 o2 n2 := by
  subst hs; subst hn; subst ho
  exact ⟨rfl, rfl⟩

theorem vox_C8_witness :
    ([4] : List Int) = [4] ∧ (3 : Int) = 3 ∧ ([0, 0, 0] : List ℚ) = [0, 0, 0]
    ∧ (vox_rms_int16 [4] 3 = vox_rms_int16 [4] 3
       ∧ vox_pcm_to_float32 [4] [0, 0, 0] 3 = vox_pcm_to_float32 [4] [0, 0, 0] 3) :=
  ⟨rfl, rfl, rfl, vox_C8_deterministic [4] [4] [0, 0, 0] [0, 0, 0] 3 3 rfl rfl rfl⟩

/-- Claim C9: for every count and buffer, the accumulated sum of squares is
non-negative, so `vox_rms_int16` returns a defined, non-negative value. -/
theorem vox_C9_rms_nonneg (samples : List Int) (n : Int) :
    0 ≤ squareSumLoop (samples.take n.toNat) ∧ 0 ≤ vox_rms_int16 samples n := by
  refine ⟨squareSumLoop_nonneg _, ?_⟩
  rw [vox_rms_int16]
  split
  · exact le_refl 0
  · exact Real.sqrt_nonneg _

/-- Claim C10: the per-sample conversion of `vox_pcm_to_float32` is monotone:
`a ≤ b` implies `a / 32768 ≤ b / 32768`; hence element-wise ordering of
inputs is preserved in the written outputs. -/
theorem vox_C10_monotone :
    (∀ a b : Int, -32768 ≤ a → b ≤ 32767 → a ≤ b → pcmToFloat a ≤ pcmToFloat b)
    ∧ ∀ (s1 s2 : List Int) (o1 o2 : List ℚ) (n : Int) (i : Nat),
        (i : Int) < n → n.toNat ≤ o1.length → n.toNat ≤ o2.length →
        s1.getD i 0 ≤ s2.getD i 0 →
        (vox_pcm_to_float32 s1 o1 n).getD i 0 ≤ (vox_pcm_to_float32 s2 o2 n).getD i 0 := by
  have key : ∀ a b : Int, a ≤ b → pcmToFloat a ≤ pcmToFloat b := by
    intro a b hab
    have h : (a : ℚ) ≤ (b : ℚ) := by exact_mod_cast hab
    rw [pcmToFloat, pcmToFloat]
    exact (div_le_div_iff_of_pos_right (by norm_num : (0 : ℚ) < 32768)).mpr h
  refine ⟨fun a b _ _ hab => key a b hab, ?_⟩
  intro s1 s2 o1 o2 n i hi h1 h2 hle
  rw [List.getD_eq_getElem?_getD, List.getD_eq_getElem?_getD,
      vox_pcm_to_float32_get s1 o1 n i hi h1, vox_pcm_to_float32_get s2 o2 n i hi h2]
  exact key _ _ hle

theorem vox_C10_witness :
    pcmToFloat (-5) ≤ pcmToFloat 7 :=
  vox_C10_monotone.1 (-5) 7 (by decide) (by decide) (by decide)
